import Mathlib

/-!
Verification of the pokedex data-access layer (`src/js/api.js`,
`src/js/controller.js`) against its natural-language specification.

The JavaScript source is shallowly embedded: JS `Map` objects become
insertion-ordered association lists, `Date.now()` becomes an explicit `now`
argument threaded through each call, fallible network access becomes
`Except`, and machine numbers become `Nat` (all quantities involved are
non-negative integers; `Math.max(0, a - b)` on numbers coincides with
truncated `Nat` subtraction).
-/

/-! ### Cache (`src/js/api.js`, class `Cache`)

A JS `Map` key in this program is either a number or a string. -/

/-- Key type of the JS `Map` inside `Cache`: the program uses numeric ids and
string tags as keys. -/
inductive CKey where
  | num : Nat → CKey
  | str : String → CKey
deriving DecidableEq, Repr

/-- The `Cache` class state: `maxSize`, `expiry`, and the backing `Map`.
A JS `Map` iterates in insertion order, `set` on an existing key keeps its
position, and `delete`/re-`set` moves it to the end; we model it as an
insertion-ordered list of `(key, timestamp, value)` entries. -/
structure Cache (V : Type) where
  maxSize : Nat
  expiry : Nat
  entries : List (CKey × Nat × V)

/-- `Map.get`: first (and, with unique keys, only) entry for `k`. -/
def mapLookup {V : Type} (m : List (CKey × Nat × V)) (k : CKey) : Option (Nat × V) :=
  match m with
  | [] => none
  | (k', tv) :: rest => if k' = k then some tv else mapLookup rest k

/-- `Map.set`: update in place when the key is present (JS keeps the original
insertion position), otherwise append at the end. -/
def mapSet {V : Type} (m : List (CKey × Nat × V)) (k : CKey) (tv : Nat × V) :
    List (CKey × Nat × V) :=
  match m with
  | [] => [(k, tv)]
  | (k', tv') :: rest => if k' = k then (k, tv) :: rest else (k', tv') :: mapSet rest k tv

/-- `Map.delete k`: removes the entry for `k` (a no-op when absent). -/
def mapDelete {V : Type} (m : List (CKey × Nat × V)) (k : CKey) : List (CKey × Nat × V) :=
  m.filter (fun e => decide (e.1 ≠ k))

/-- `Cache._cleanupExpired`: drops every entry with `now - timestamp > expiry`.
(Deleting the current entry while iterating a JS `Map` is well defined and
equivalent to this filter.) -/
def Cache.cleanupExpired {V : Type} (c : Cache V) (now : Nat) : Cache V :=
  { c with entries := c.entries.filter (fun e => decide (now - e.2.1 ≤ c.expiry)) }

/-- `Cache.set(key, value)` at time `now`: when the map is at/over `maxSize`,
first clean expired entries; when still at/over `maxSize`, delete the first
key in map order (`this.cache.keys().next().value`, i.e. the head entry —
dropping the head also covers the empty-map case, where JS deletes the
`undefined` key as a no-op); finally insert the new entry stamped `now`. -/
def Cache.set {V : Type} (c : Cache V) (now : Nat) (k : CKey) (v : V) : Cache V :=
  let m1 := if c.maxSize ≤ c.entries.length then (c.cleanupExpired now).entries else c.entries
  let m2 := if c.maxSize ≤ m1.length then m1.tail else m1
  { c with entries := mapSet m2 k (now, v) }

/-- `Cache.get(key)` at time `now`: absent keys give `null`; an entry with
`now - timestamp > expiry` is deleted and gives `null`; otherwise the value is
returned and the map is not touched (in particular, no recency update). -/
def Cache.get {V : Type} (c : Cache V) (now : Nat) (k : CKey) : Option V × Cache V :=
  match mapLookup c.entries k with
  | none => (none, c)
  | some (ts, v) =>
    if c.expiry < now - ts then (none, { c with entries := mapDelete c.entries k })
    else (some v, c)

/-- `Cache.has(key)` at time `now`: same freshness logic as `get`. -/
def Cache.hasKey {V : Type} (c : Cache V) (now : Nat) (k : CKey) : Bool × Cache V :=
  match mapLookup c.entries k with
  | none => (false, c)
  | some (ts, _) =>
    if c.expiry < now - ts then (false, { c with entries := mapDelete c.entries k })
    else (true, c)

/-- A sequence of `Cache.set` calls, each tagged with its `Date.now()`. -/
def Cache.runSets {V : Type} (c : Cache V) (ops : List (Nat × CKey × V)) : Cache V :=
  ops.foldl (fun c op => c.set op.1 op.2.1 op.2.2) c

/-! #### Cache lemmas -/

theorem mapLookup_delete {V : Type} (m : List (CKey × Nat × V)) (k : CKey) :
    mapLookup (mapDelete m k) k = none := by
  induction m with
  | nil => rfl
  | cons e rest ih =>
    by_cases h : e.1 = k
    · simpa [mapDelete, mapLookup, h] using ih
    · simpa [mapDelete, mapLookup, h] using ih

theorem mapSet_length_le {V : Type} (m : List (CKey × Nat × V)) (k : CKey) (tv : Nat × V) :
    (mapSet m k tv).length ≤ m.length + 1 := by
  induction m with
  | nil => simp [mapSet]
  | cons e rest ih =>
    by_cases h : e.1 = k
    · simp [mapSet, h]
    · simp only [mapSet, h, if_false, List.length_cons]
      omega

theorem Cache.set_length_le {V : Type} (c : Cache V) (now : Nat) (k : CKey) (v : V)
    (hmax : 1 ≤ c.maxSize) (hlen : c.entries.length ≤ c.maxSize) :
    (c.set now k v).entries.length ≤ c.maxSize := by
  unfold Cache.set
  set m1 := if c.maxSize ≤ c.entries.length then (c.cleanupExpired now).entries else c.entries
    with hm1
  have hm1len : m1.length ≤ c.maxSize := by
    rw [hm1]
    split
    · exact le_trans (List.length_filter_le _ _) hlen
    · exact hlen
  set m2 := if c.maxSize ≤ m1.length then m1.tail else m1 with hm2
  have hm2len : m2.length + 1 ≤ c.maxSize := by
    rw [hm2]
    split
    · simp only [List.length_tail]
      omega
    · omega
  exact le_trans (mapSet_length_le m2 k (now, v)) hm2len

/-- C7: for every sequence of `Cache.set` calls (any keys, any times), starting
from any state within the bound, the entry count stays at most `maxSize` after
each call — provided `maxSize ≥ 1` (the class is only instantiated with
`maxSize = 300`). Since the starting state is arbitrary, this covers the state
after every intermediate call of any longer sequence. -/
theorem cache_size_bounded {V : Type} (c : Cache V) (ops : List (Nat × CKey × V))
    (hmax : 1 ≤ c.maxSize) (hlen : c.entries.length ≤ c.maxSize) :
    (c.runSets ops).entries.length ≤ c.maxSize := by
  induction ops generalizing c with
  | nil => simpa [Cache.runSets] using hlen
  | cons op rest ih =>
    have hstep := Cache.set_length_le c op.1 op.2.1 op.2.2 hmax hlen
    have hsz : (c.set op.1 op.2.1 op.2.2).maxSize = c.maxSize := rfl
    have := ih (c.set op.1 op.2.1 op.2.2) (by rw [hsz]; exact hmax) (by rw [hsz]; exact hstep)
    simpa [Cache.runSets] using this

/-- Witness for C7 at a concrete input: four inserts into a cache of capacity 2. -/
theorem cache_size_bounded_witness :
    (Cache.runSets { maxSize := 2, expiry := 100, entries := [] }
      [(0, CKey.num 1, (10 : Nat)), (1, CKey.num 2, 20), (2, CKey.num 3, 30),
        (3, CKey.num 4, 40)]).entries.length ≤ 2 :=
  cache_size_bounded { maxSize := 2, expiry := 100, entries := [] }
    [(0, CKey.num 1, 10), (1, CKey.num 2, 20), (2, CKey.num 3, 30), (3, CKey.num 4, 40)]
    (by decide) (by decide)

/-- The state reached by: `set k1`, `set k2`, a *hit* `get k1`, then `set k3`
under size pressure (capacity 2, nothing expired). -/
def cacheLruDemo : Cache Nat :=
  let c0 : Cache Nat := { maxSize := 2, expiry := 1000, entries := [] }
  let c1 := c0.set 0 (CKey.str "k1") 10
  let c2 := c1.set 1 (CKey.str "k2") 20
  let c3 := (c2.get 2 (CKey.str "k1")).2
  c3.set 3 (CKey.str "k3") 30

/-- C1: evaluation of `Cache` at the failing input. `k1` is read (a cache hit)
after `k2` was written, yet the size-pressure eviction triggered by `set k3`
removes `k1` — the earliest-inserted key — and keeps `k2`, the least recently
touched one. So `get` does not refresh recency and eviction is insertion
order, not LRU, contradicting both the spec and the class's own doc comment
("Enhanced LRU cache implementation"). -/
theorem cache_eviction_is_insertion_order :
    ((({ maxSize := 2, expiry := 1000, entries := [] } : Cache Nat).set 0
        (CKey.str "k1") 10 |>.set 1 (CKey.str "k2") 20 |>.get 2 (CKey.str "k1")).1
      = some 10)
    ∧ (cacheLruDemo.get 4 (CKey.str "k1")).1 = none
    ∧ (cacheLruDemo.get 4 (CKey.str "k2")).1 = some 20 := by
  refine ⟨by decide, by decide, by decide⟩

/-- C6 counterexample: at the exact boundary `now = storedAt + expiry`
(entry stored at 0, expiry 5, read at 5) the code's strict comparison
`now - timestamp > expiry` is false, so `get` returns the value — the claim
says it must already be absent at the boundary. -/
theorem cache_get_at_exact_expiry_returns_value :
    ((({ maxSize := 300, expiry := 5, entries := [(CKey.str "k", 0, 7)] } : Cache Nat).get
      5 (CKey.str "k")).1 = some 7) := by
  decide

/-- C6 (amended): once `now` is *strictly* past `storedAt + expiry`, `get`
returns absent and deletes the entry, for any state — independent of
size-pressure eviction. -/
theorem cache_get_expired_absent {V : Type} (c : Cache V) (now : Nat) (k : CKey)
    (ts : Nat) (v : V) (hfound : mapLookup c.entries k = some (ts, v))
    (hold : ts + c.expiry < now) :
    (c.get now k).1 = none ∧ mapLookup (c.get now k).2.entries k = none := by
  have hgt : c.expiry < now - ts := by omega
  unfold Cache.get
  rw [hfound]
  dsimp only
  rw [if_pos hgt]
  exact ⟨rfl, mapLookup_delete c.entries k⟩

/-- A one-entry cache (stored at time 0, expiry 5) used by the C6 witness. -/
def cacheExpiryDemo : Cache Nat :=
  { maxSize := 300, expiry := 5, entries := [(CKey.str "k", 0, 7)] }

/-- Witness for the amended C6 at a concrete input: entry stored at 0 with
expiry 5 is absent (and removed) when read at 6. -/
theorem cache_get_expired_absent_witness :
    (cacheExpiryDemo.get 6 (CKey.str "k")).1 = none
    ∧ mapLookup (cacheExpiryDemo.get 6 (CKey.str "k")).2.entries (CKey.str "k") = none :=
  cache_get_expired_absent cacheExpiryDemo 6 (CKey.str "k") 0 7 (by decide) (by decide)

/-! ### RequestQueue (`src/js/api.js`, class `RequestQueue`)

`enqueue(url)` reads `now = Date.now()` and the shared `lastRequestTime`,
computes `delay = Math.max(0, lastRequestTime + minInterval - now)`, sleeps
`delay`, performs the fetch, and writes `lastRequestTime = Date.now()` only
when the fetch resolved with an ok status — a rejected fetch or a non-2xx
response throws before the write, and the `catch` rethrows without writing.
There is no queue object: nothing prevents a second `enqueue` whose
synchronous prefix runs before the first completes. -/

/-- `MIN_REQUEST_INTERVAL` from `src/js/api.js`. -/
def MIN_REQUEST_INTERVAL : Nat := 50

/-- Start time of an `enqueue` call arriving at `now` that read the shared
`lastRequestTime` value `last`: `now + Math.max(0, last + minInterval - now)`
(truncated `Nat` subtraction models the clamp at zero). -/
def enqueueStart (minInterval last now : Nat) : Nat :=
  now + ((last + minInterval) - now)

/-- Sequential (awaited one-by-one) `enqueue` calls, each given as
`(arrival time, fetch duration, ok)`, where `ok` records whether the fetch
resolved with an ok status; returns `(start, end, ok)` for each call. The
`lastRequestTime` register is threaded through and updated *only* on the
success path: the write `this.lastRequestTime = Date.now()` is reached only
after `fetch` resolves with `response.ok`, and the `catch` rethrows without
writing. (A later `response.json()` rejection happens after the write, so
`ok` is the HTTP outcome, not the caller-visible one.) Sequentiality means
each call reads the register exactly as the previous call left it. -/
def seqRun (minInterval : Nat) : Nat → List (Nat × Nat × Bool) → List (Nat × Nat × Bool)
  | _, [] => []
  | last, (a, d, ok) :: rest =>
    let s := enqueueStart minInterval last a
    (s, s + d, ok) :: seqRun minInterval (if ok then s + d else last) rest

theorem enqueueStart_ge (minInterval last now : Nat) :
    last + minInterval ≤ enqueueStart minInterval last now := by
  unfold enqueueStart
  omega

/-- C2 (amended): when `enqueue` calls are sequential — each awaited to
completion before the next is issued — the fetches are dispatched one at a
time in call order, and whenever a request completes *successfully* (the only
case in which `lastRequestTime` is written), the next request starts at least
`minInterval` after that completion. A failed request leaves the register
unchanged, so the request after a failure may start immediately
(`seqRun_after_failure`). -/
theorem throttle_sequential_spacing (minInterval last : Nat)
    (calls : List (Nat × Nat × Bool)) :
    List.Chain' (fun p q : Nat × Nat × Bool => p.2.2 = true → p.2.1 + minInterval ≤ q.1)
      (seqRun minInterval last calls) := by
  induction calls generalizing last with
  | nil => simp [seqRun]
  | cons c rest ih =>
    obtain ⟨a, d, ok⟩ := c
    cases rest with
    | nil => simp [seqRun]
    | cons c2 rest2 =>
      obtain ⟨a2, d2, ok2⟩ := c2
      rw [seqRun, seqRun, List.chain'_cons]
      constructor
      · intro hok
        simp only at hok
        subst hok
        simpa using enqueueStart_ge minInterval _ a2
      · rw [← seqRun]
        exact ih _

/-- The failure path of the throttle under sequential use: with
`lastRequestTime = 0`, a request arriving at t = 1000 that fails at t = 1030
does not update the register, so the next request, issued at t = 1030,
starts at t = 1030 — 0 ms, not `minInterval = 50` ms, after the failed
request's completion. -/
theorem seqRun_after_failure :
    seqRun MIN_REQUEST_INTERVAL 0 [(1000, 30, false), (1030, 5, true)]
      = [(1000, 1030, false), (1030, 1035, true)] := by
  decide

/-- Two `enqueue` calls issued in the same event-loop turn (as
`_preloadAdjacent` does via `Promise.allSettled`): both synchronous prefixes
read the same `lastRequestTime` value `last` — the completion write that would
update it happens only later — so both compute their delay from `last`. -/
def concurrentEnqueuePair (minInterval last now d1 d2 : Nat) : (Nat × Nat) × (Nat × Nat) :=
  let s1 := enqueueStart minInterval last now
  let s2 := enqueueStart minInterval last now
  ((s1, s1 + d1), (s2, s2 + d2))

/-- C2 counterexample: two `enqueue` calls issued concurrently (same turn,
`lastRequestTime = 0`, arriving at time 100, each fetch taking 30) both start
at time 100: at time 110 both are in flight, and the second starts 0 ms — not
`minInterval = 50` ms — after the first ends; the code has no FIFO queue
serializing them. -/
theorem throttle_concurrent_overlap :
    (concurrentEnqueuePair MIN_REQUEST_INTERVAL 0 100 30 30).1.1 ≤ 110
    ∧ 110 < (concurrentEnqueuePair MIN_REQUEST_INTERVAL 0 100 30 30).1.2
    ∧ (concurrentEnqueuePair MIN_REQUEST_INTERVAL 0 100 30 30).2.1 ≤ 110
    ∧ 110 < (concurrentEnqueuePair MIN_REQUEST_INTERVAL 0 100 30 30).2.2
    ∧ (concurrentEnqueuePair MIN_REQUEST_INTERVAL 0 100 30 30).2.1
        < (concurrentEnqueuePair MIN_REQUEST_INTERVAL 0 100 30 30).1.2 + MIN_REQUEST_INTERVAL := by
  decide

/-! ### Persisted name list (`StorageHelper.loadFromStorage` and
`PokedexController.loadPokemonList`)

The controller's constructor builds
`config.storage = { nameListKey, nameListTsKey, nameListTTL }`, but
`loadPokemonList` destructures `const { key, tsKey, ttl } = this.config.storage`
— three property names the object does not have, so in JS all three read as
`undefined`. We model a JS property read as a lookup by name, and a possibly
`undefined` number as `Option Nat`. -/

/-- `NAME_LIST_TTL` from `src/js/api.js` (7 days in milliseconds). -/
def NAME_LIST_TTL : Nat := 7 * 24 * 60 * 60 * 1000

/-- An entry of the persisted pokemon list: `{ name, id }`. -/
structure PEntry where
  name : String
  id : Nat
deriving DecidableEq, Repr

/-- The numeric-valued properties of the `config.storage` object exactly as the
constructor writes them (`nameListTTL` is the only numeric one; the two key
strings are not relevant to the TTL logic). -/
def configStorageNat : List (String × Nat) := [("nameListTTL", NAME_LIST_TTL)]

/-- The value `loadPokemonList` actually passes as `ttl`: the property named
`"ttl"` of `config.storage`, which does not exist — in JS, `undefined`. -/
def destructuredTtl : Option Nat := (configStorageNat.lookup "ttl").map (fun t => t)

/-- JS `x > y` where `y` may be `undefined`: any comparison with `undefined`
is `false` (NaN comparison). -/
def jsGtOpt (x : Nat) : Option Nat → Bool
  | none => false
  | some t => decide (t < x)

/-- `StorageHelper.loadFromStorage(key, ttl)` with the durable storage
abstracted as the (optional) stored list and timestamp under the effective
key: returns `null` when either slot is missing, when the timestamp is
unparsable (absorbed into `storedTs = none`), or when
`Date.now() - timestamp > ttl`; otherwise the parsed list. -/
def loadFromStorage (stored : Option (List PEntry)) (storedTs : Option Nat)
    (now : Nat) (ttl : Option Nat) : Option (List PEntry) :=
  match stored, storedTs with
  | some l, some ts => if jsGtOpt (now - ts) ttl then none else some l
  | _, _ => none

/-- The adoption decision of `loadPokemonList`: after fetching the
authoritative count, the persisted list is adopted (no paginated reload) iff
`persisted?.length === apiCount`, where `persisted` is
`loadFromStorage(key, ttl)` called with the destructured — hence `undefined` —
`ttl`. -/
def loadPokemonListAdopts (stored : Option (List PEntry)) (storedTs : Option Nat)
    (now apiCount : Nat) : Bool :=
  match loadFromStorage stored storedTs now destructuredTtl with
  | some l => decide (l.length = apiCount)
  | none => false

/-- C3: evaluation at the failing input. A persisted list whose age exceeds
`NAME_LIST_TTL` (stored at time 0, read 7 days + 1000 ms later) and whose
length matches the remote count is *adopted*, because the destructuring bug
makes the TTL comparison `Date.now() - timestamp > undefined`, which is always
false in JS — the claim (and the intent of `nameListTTL`/`loadFromStorage`)
says such a list is discarded and triggers a full paginated reload. With the
intended `ttl = NAME_LIST_TTL` the same input is rejected. -/
theorem stale_name_list_is_adopted :
    loadPokemonListAdopts
        (some [{ name := "bulbasaur", id := 1 }, { name := "ivysaur", id := 2 }])
        (some 0) (NAME_LIST_TTL + 1000) 2 = true
    ∧ destructuredTtl = none
    ∧ loadFromStorage
        (some [{ name := "bulbasaur", id := 1 }, { name := "ivysaur", id := 2 }])
        (some 0) (NAME_LIST_TTL + 1000) (some NAME_LIST_TTL) = none := by
  refine ⟨by decide, rfl, by decide⟩

/-! ### Composite resolution (`PokedexController.getPokemonData`)

On a cache miss the controller fetches the base record
(`api.getPokemon(idOrName)` → URL `pokemon/<idOrName>`), then — when the base
record carries a `species.url` — fetches that URL directly
(`api.fetchData(data.species.url)`), then — when the species data carries an
`evolution_chain.url` — fetches that URL directly; it finally stores the
composite under the numeric id key and the `name_<lowercased-name>` key and
inserts `name → id` into `pokemonNameMap`. We record the URLs fetched over
the network in a log. `fetchData` dispatches purely on the URL; species and
evolution-chain URLs are disjoint in the remote API, so the world carries one
response map per shape. -/

/-- JS `String.prototype.toLowerCase()` for the ASCII strings this program
handles: character-wise lowering. (Defined on the character list so that it
reduces in the kernel.) -/
def jsToLower (s : String) : String := ⟨s.data.map Char.toLower⟩

/-- The argument of `getPokemonData`: a numeric id (a digit-only string is
coerced to its number by the code) or a name. -/
inductive IdOrName where
  | byId : Nat → IdOrName
  | byName : String → IdOrName
deriving DecidableEq, Repr

/-- Base entity record: the fields of the `pokemon/<idOrName>` response the
controller reads. -/
structure PokeBase where
  id : Nat
  name : String
  speciesUrl : Option String
deriving DecidableEq, Repr

/-- Species metadata: the field of the species response the controller reads. -/
structure SpeciesData where
  evolutionChainUrl : Option String
deriving DecidableEq, Repr

/-- Evolution-chain payload (opaque to the resolution logic). -/
structure EvoData where
  chainId : Nat
deriving DecidableEq, Repr

/-- The composite the controller assembles: base record with `speciesData` and
`evolutionData` attached when present. -/
structure Composite where
  base : PokeBase
  speciesData : Option SpeciesData
  evolutionData : Option EvoData
deriving DecidableEq, Repr

/-- The remote catalog: each fetchable URL either answers or fails. -/
structure ApiWorld where
  pokemonAt : String → Except String PokeBase
  speciesAt : String → Except String SpeciesData
  evolutionAt : String → Except String EvoData

/-- Mutable controller state touched by `getPokemonData`. -/
structure ResolveState where
  pokemonCache : Cache Composite
  pokemonNameMap : List (String × Nat)
  currentId : Nat

/-- `Map.set` for the string-keyed `pokemonNameMap`. -/
def smapSet (m : List (String × Nat)) (k : String) (v : Nat) : List (String × Nat) :=
  match m with
  | [] => [(k, v)]
  | (k', v') :: rest => if k' = k then (k, v) :: rest else (k', v') :: smapSet rest k v

/-- `Map.get` for the string-keyed `pokemonNameMap`. -/
def smapLookup (m : List (String × Nat)) (k : String) : Option Nat :=
  match m with
  | [] => none
  | (k', v') :: rest => if k' = k then some v' else smapLookup rest k

/-- The URL segment of the base-record fetch: `pokemon/${idOrName}`. -/
def pokemonPath (q : IdOrName) : String :=
  "pokemon/" ++ (match q with | .byId n => toString n | .byName s => s)

/-- The cache key `getPokemonData` computes: the number itself for numeric
input, `name_<lowercased input>` otherwise. -/
def keyOf (q : IdOrName) : CKey :=
  match q with
  | .byId n => CKey.num n
  | .byName s => CKey.str ("name_" ++ jsToLower s)

/-- The three writes on the success path: cache the composite under the
numeric id key and the lowercased-name key, insert `name → id` into the name
map. -/
def storeComposite (st : ResolveState) (now : Nat) (comp : Composite) : ResolveState :=
  let c1 := st.pokemonCache.set now (CKey.num comp.base.id) comp
  let c2 := c1.set now (CKey.str ("name_" ++ jsToLower comp.base.name)) comp
  { st with pokemonCache := c2,
            pokemonNameMap := smapSet st.pokemonNameMap (jsToLower comp.base.name) comp.base.id }

/-- `PokedexController.getPokemonData(idOrName)` at time `now`: result,
updated state, and the log of URLs fetched over the network (in order). -/
def getPokemonData (w : ApiWorld) (st : ResolveState) (now : Nat) (q : IdOrName) :
    Except String Composite × ResolveState × List String :=
  let key := keyOf q
  match st.pokemonCache.get now key with
  | (some comp, c') =>
    (Except.ok comp,
      { st with pokemonCache := c',
                currentId := match q with | .byId _ => st.currentId | .byName _ => comp.base.id },
      [])
  | (none, c') =>
    let stm := { st with pokemonCache := c' }
    match w.pokemonAt (pokemonPath q) with
    | .error e => (.error e, stm, [pokemonPath q])
    | .ok base =>
      match base.speciesUrl with
      | none =>
        (.ok { base := base, speciesData := none, evolutionData := none },
          storeComposite stm now { base := base, speciesData := none, evolutionData := none },
          [pokemonPath q])
      | some su =>
        match w.speciesAt su with
        | .error e => (.error e, stm, [pokemonPath q, su])
        | .ok sd =>
          match sd.evolutionChainUrl with
          | none =>
            (.ok { base := base, speciesData := some sd, evolutionData := none },
              storeComposite stm now { base := base, speciesData := some sd, evolutionData := none },
              [pokemonPath q, su])
          | some eu =>
            match w.evolutionAt eu with
            | .error e => (.error e, stm, [pokemonPath q, su, eu])
            | .ok ev =>
              (.ok { base := base, speciesData := some sd, evolutionData := some ev },
                storeComposite stm now
                  { base := base, speciesData := some sd, evolutionData := some ev },
                [pokemonPath q, su, eu])

/-! #### Lookup/insert lemmas for the resolution state -/

theorem mapLookup_mapSet_self {V : Type} (m : List (CKey × Nat × V)) (k : CKey)
    (tv : Nat × V) : mapLookup (mapSet m k tv) k = some tv := by
  induction m with
  | nil => simp [mapSet, mapLookup]
  | cons e rest ih =>
    by_cases h : e.1 = k
    · simp [mapSet, mapLookup, h]
    · simpa [mapSet, mapLookup, h] using ih

theorem mapLookup_mapSet_ne {V : Type} (m : List (CKey × Nat × V)) (k k' : CKey)
    (tv : Nat × V) (hne : k ≠ k') : mapLookup (mapSet m k' tv) k = mapLookup m k := by
  have hne' : ¬ k' = k := fun h => hne h.symm
  induction m with
  | nil => simp [mapSet, mapLookup, hne']
  | cons e rest ih =>
    by_cases h : e.1 = k'
    · simp [mapSet, mapLookup, h, hne']
    · simp [mapSet, mapLookup, h, ih]

theorem smapLookup_smapSet_self (m : List (String × Nat)) (k : String) (v : Nat) :
    smapLookup (smapSet m k v) k = some v := by
  induction m with
  | nil => simp [smapSet, smapLookup]
  | cons e rest ih =>
    by_cases h : e.1 = k
    · simp [smapSet, smapLookup, h]
    · simpa [smapSet, smapLookup, h] using ih

/-- Below capacity, `Cache.set` performs no cleanup and no eviction: it is a
plain `Map.set`. -/
theorem Cache.set_no_pressure {V : Type} (c : Cache V) (now : Nat) (k : CKey) (v : V)
    (h : c.entries.length < c.maxSize) :
    (c.set now k v).entries = mapSet c.entries k (now, v) := by
  unfold Cache.set
  have h1 : ¬ c.maxSize ≤ c.entries.length := by omega
  simp only [h1, if_false]

/-- The success-path writes, below capacity: both cache keys map to the
composite and the name map gains `name → id`. -/
theorem storeComposite_spec (st : ResolveState) (now : Nat) (comp : Composite)
    (hcap : st.pokemonCache.entries.length + 2 ≤ st.pokemonCache.maxSize) :
    smapLookup (storeComposite st now comp).pokemonNameMap (jsToLower comp.base.name)
      = some comp.base.id
    ∧ mapLookup (storeComposite st now comp).pokemonCache.entries
        (CKey.num comp.base.id) = some (now, comp)
    ∧ mapLookup (storeComposite st now comp).pokemonCache.entries
        (CKey.str ("name_" ++ jsToLower comp.base.name)) = some (now, comp) := by
  have h1 : st.pokemonCache.entries.length < st.pokemonCache.maxSize := by omega
  have e1 : (st.pokemonCache.set now (CKey.num comp.base.id) comp).entries
      = mapSet st.pokemonCache.entries (CKey.num comp.base.id) (now, comp) :=
    Cache.set_no_pressure _ _ _ _ h1
  have h2 : (st.pokemonCache.set now (CKey.num comp.base.id) comp).entries.length
      < (st.pokemonCache.set now (CKey.num comp.base.id) comp).maxSize := by
    have := mapSet_length_le st.pokemonCache.entries (CKey.num comp.base.id) (now, comp)
    have hsz : (st.pokemonCache.set now (CKey.num comp.base.id) comp).maxSize
        = st.pokemonCache.maxSize := rfl
    rw [e1] at *
    omega
  have e2 := Cache.set_no_pressure (st.pokemonCache.set now (CKey.num comp.base.id) comp)
    now (CKey.str ("name_" ++ jsToLower comp.base.name)) comp h2
  refine ⟨smapLookup_smapSet_self _ _ _, ?_, ?_⟩
  · show mapLookup ((st.pokemonCache.set now (CKey.num comp.base.id) comp).set now
      (CKey.str ("name_" ++ jsToLower comp.base.name)) comp).entries _ = _
    rw [e2, mapLookup_mapSet_ne _ _ _ _ (by simp), e1, mapLookup_mapSet_self]
  · show mapLookup ((st.pokemonCache.set now (CKey.num comp.base.id) comp).set now
      (CKey.str ("name_" ++ jsToLower comp.base.name)) comp).entries _ = _
    rw [e2, mapLookup_mapSet_self]

/-- The success-path writes touch no cache key other than the numeric id key
and the lowercased-name key (below capacity). -/
theorem storeComposite_frame (st : ResolveState) (now : Nat) (comp : Composite)
    (hcap : st.pokemonCache.entries.length + 2 ≤ st.pokemonCache.maxSize)
    (k : CKey) (hk1 : k ≠ CKey.num comp.base.id)
    (hk2 : k ≠ CKey.str ("name_" ++ jsToLower comp.base.name)) :
    mapLookup (storeComposite st now comp).pokemonCache.entries k
      = mapLookup st.pokemonCache.entries k := by
  have h1 : st.pokemonCache.entries.length < st.pokemonCache.maxSize := by omega
  have e1 : (st.pokemonCache.set now (CKey.num comp.base.id) comp).entries
      = mapSet st.pokemonCache.entries (CKey.num comp.base.id) (now, comp) :=
    Cache.set_no_pressure _ _ _ _ h1
  have h2 : (st.pokemonCache.set now (CKey.num comp.base.id) comp).entries.length
      < (st.pokemonCache.set now (CKey.num comp.base.id) comp).maxSize := by
    have := mapSet_length_le st.pokemonCache.entries (CKey.num comp.base.id) (now, comp)
    have hsz : (st.pokemonCache.set now (CKey.num comp.base.id) comp).maxSize
        = st.pokemonCache.maxSize := rfl
    rw [e1] at *
    omega
  have e2 := Cache.set_no_pressure (st.pokemonCache.set now (CKey.num comp.base.id) comp)
    now (CKey.str ("name_" ++ jsToLower comp.base.name)) comp h2
  show mapLookup ((st.pokemonCache.set now (CKey.num comp.base.id) comp).set now
    (CKey.str ("name_" ++ jsToLower comp.base.name)) comp).entries _ = _
  rw [e2, mapLookup_mapSet_ne _ _ _ _ hk2, e1, mapLookup_mapSet_ne _ _ _ _ hk1]

/-- C9: when any of the three network fetches of an uncached resolution fails,
`getPokemonData` propagates that error to its caller, and neither the cache
(beyond the expired-entry removal already performed by the failed initial
lookup) nor the name map is written — in particular no entry is created under
the numeric id key or the `name_` key. -/
theorem resolution_failure_leaves_cache_unchanged
    (w : ApiWorld) (st : ResolveState) (now : Nat) (q : IdOrName) (e : String)
    (hmiss : (st.pokemonCache.get now (keyOf q)).1 = none)
    (herr :
      w.pokemonAt (pokemonPath q) = .error e
      ∨ (∃ base su, w.pokemonAt (pokemonPath q) = .ok base ∧ base.speciesUrl = some su
          ∧ w.speciesAt su = .error e)
      ∨ (∃ base su sd eu, w.pokemonAt (pokemonPath q) = .ok base
          ∧ base.speciesUrl = some su ∧ w.speciesAt su = .ok sd
          ∧ sd.evolutionChainUrl = some eu ∧ w.evolutionAt eu = .error e)) :
    (getPokemonData w st now q).1 = .error e
    ∧ (getPokemonData w st now q).2.1.pokemonCache = (st.pokemonCache.get now (keyOf q)).2
    ∧ (getPokemonData w st now q).2.1.pokemonNameMap = st.pokemonNameMap := by
  unfold getPokemonData
  rcases hg : st.pokemonCache.get now (keyOf q) with ⟨o, c'⟩
  rw [hg] at hmiss
  simp only at hmiss
  subst hmiss
  rcases herr with h1 | ⟨base, su, hb, hsu, hsp⟩ | ⟨base, su, sd, eu, hb, hsu, hsp, heu, hev⟩
  · simp [hg, h1]
  · simp [hg, hb, hsu, hsp]
  · simp [hg, hb, hsu, hsp, heu, hev]

/-- A world where the base record of id 1 exists but its species fetch fails
with HTTP 500. -/
def demoWorldFail : ApiWorld :=
  { pokemonAt := fun u =>
      if u = "pokemon/1" then .ok { id := 1, name := "A", speciesUrl := some "S" }
      else .error "HTTP 404"
    speciesAt := fun _ => .error "HTTP 500"
    evolutionAt := fun _ => .error "HTTP 404" }

/-- Fresh controller state: empty cache (capacity 300), empty name map. -/
def demoState0 : ResolveState :=
  { pokemonCache := { maxSize := 300, expiry := 1000, entries := [] }
    pokemonNameMap := []
    currentId := 1 }

/-- Witness for C9 at a concrete input: resolving id 1 in `demoWorldFail`
surfaces the HTTP 500 of the species fetch and writes nothing. -/
theorem resolution_failure_witness :
    (getPokemonData demoWorldFail demoState0 5 (IdOrName.byId 1)).1 = .error "HTTP 500"
    ∧ (getPokemonData demoWorldFail demoState0 5 (IdOrName.byId 1)).2.1.pokemonCache
        = (demoState0.pokemonCache.get 5 (keyOf (IdOrName.byId 1))).2
    ∧ (getPokemonData demoWorldFail demoState0 5 (IdOrName.byId 1)).2.1.pokemonNameMap
        = demoState0.pokemonNameMap :=
  resolution_failure_leaves_cache_unchanged demoWorldFail demoState0 5 (IdOrName.byId 1)
    "HTTP 500" (by decide)
    (Or.inr (Or.inl ⟨{ id := 1, name := "A", speciesUrl := some "S" }, "S",
      rfl, rfl, rfl⟩))

/-- C10: every successful uncached resolution — for any of the three success
shapes (no species reference, species without evolution chain, full chain) —
returns a composite built on the fetched base record, caches it under both
the numeric id key and the `name_<lowercased-name>` key, and inserts the
record's lowercased name → id mapping into the in-memory name map (below
cache capacity, so that no eviction interferes). -/
theorem resolution_success_extends_name_index
    (w : ApiWorld) (st : ResolveState) (now : Nat) (q : IdOrName) (base : PokeBase)
    (hmiss : (st.pokemonCache.get now (keyOf q)).1 = none)
    (hcap : (st.pokemonCache.get now (keyOf q)).2.entries.length + 2
        ≤ st.pokemonCache.maxSize)
    (hb : w.pokemonAt (pokemonPath q) = .ok base)
    (hpath : base.speciesUrl = none
      ∨ (∃ su sd, base.speciesUrl = some su ∧ w.speciesAt su = .ok sd
          ∧ (sd.evolutionChainUrl = none
            ∨ ∃ eu ev, sd.evolutionChainUrl = some eu ∧ w.evolutionAt eu = .ok ev))) :
    ∃ comp : Composite,
      (getPokemonData w st now q).1 = .ok comp
      ∧ comp.base = base
      ∧ smapLookup (getPokemonData w st now q).2.1.pokemonNameMap (jsToLower base.name)
          = some base.id
      ∧ mapLookup (getPokemonData w st now q).2.1.pokemonCache.entries
          (CKey.num base.id) = some (now, comp)
      ∧ mapLookup (getPokemonData w st now q).2.1.pokemonCache.entries
          (CKey.str ("name_" ++ jsToLower base.name)) = some (now, comp) := by
  unfold getPokemonData
  rcases hg : st.pokemonCache.get now (keyOf q) with ⟨o, c'⟩
  rw [hg] at hmiss hcap
  simp only at hmiss hcap
  subst hmiss
  have hsz : ({ st with pokemonCache := c' } : ResolveState).pokemonCache.entries.length + 2
      ≤ ({ st with pokemonCache := c' } : ResolveState).pokemonCache.maxSize := by
    have hmx : c'.maxSize = st.pokemonCache.maxSize := by
      have : c' = (st.pokemonCache.get now (keyOf q)).2 := by rw [hg]
      rw [this]
      unfold Cache.get
      rcases mapLookup st.pokemonCache.entries (keyOf q) with _ | ⟨ts, v⟩ <;> simp
      split <;> rfl
    simpa [hmx] using hcap
  rcases hpath with hnone | ⟨su, sd, hsu, hsp, hrest⟩
  · refine ⟨{ base := base, speciesData := none, evolutionData := none }, ?_⟩
    have hspec := storeComposite_spec { st with pokemonCache := c' } now
      { base := base, speciesData := none, evolutionData := none } hsz
    refine ⟨?_, rfl, ?_, ?_, ?_⟩
    · simp only [hg, hb, hnone]
    · simpa only [hg, hb, hnone] using hspec.1
    · simpa only [hg, hb, hnone] using hspec.2.1
    · simpa only [hg, hb, hnone] using hspec.2.2
  · rcases hrest with hnoevo | ⟨eu, ev, heu, hev⟩
    · refine ⟨{ base := base, speciesData := some sd, evolutionData := none }, ?_⟩
      have hspec := storeComposite_spec { st with pokemonCache := c' } now
        { base := base, speciesData := some sd, evolutionData := none } hsz
      refine ⟨?_, rfl, ?_, ?_, ?_⟩
      · simp only [hg, hb, hsu, hsp, hnoevo]
      · simpa only [hg, hb, hsu, hsp, hnoevo] using hspec.1
      · simpa only [hg, hb, hsu, hsp, hnoevo] using hspec.2.1
      · simpa only [hg, hb, hsu, hsp, hnoevo] using hspec.2.2
    · refine ⟨{ base := base, speciesData := some sd, evolutionData := some ev }, ?_⟩
      have hspec := storeComposite_spec { st with pokemonCache := c' } now
        { base := base, speciesData := some sd, evolutionData := some ev } hsz
      refine ⟨?_, rfl, ?_, ?_, ?_⟩
      · simp only [hg, hb, hsu, hsp, heu, hev]
      · simpa only [hg, hb, hsu, hsp, heu, hev] using hspec.1
      · simpa only [hg, hb, hsu, hsp, heu, hev] using hspec.2.1
      · simpa only [hg, hb, hsu, hsp, heu, hev] using hspec.2.2

/-- A world where ids 1 and 2 both exist and share the species at URL `"S"`,
whose evolution chain is at URL `"E"`. -/
def demoWorldOk : ApiWorld :=
  { pokemonAt := fun u =>
      if u = "pokemon/1" then .ok { id := 1, name := "A", speciesUrl := some "S" }
      else if u = "pokemon/2" then .ok { id := 2, name := "B", speciesUrl := some "S" }
      else .error "HTTP 404"
    speciesAt := fun u =>
      if u = "S" then .ok { evolutionChainUrl := some "E" } else .error "HTTP 404"
    evolutionAt := fun u =>
      if u = "E" then .ok { chainId := 9 } else .error "HTTP 404" }

/-- Witness for C10 at a concrete input: resolving id 1 in `demoWorldOk` caches
the composite under keys `1` and `"name_a"` and inserts `"a" → 1` into the
name map. -/
theorem resolution_success_witness :
    ∃ comp : Composite,
      (getPokemonData demoWorldOk demoState0 7 (IdOrName.byId 1)).1 = .ok comp
      ∧ comp.base = { id := 1, name := "A", speciesUrl := some "S" }
      ∧ smapLookup (getPokemonData demoWorldOk demoState0 7 (IdOrName.byId 1)).2.1.pokemonNameMap
          (jsToLower ({ id := 1, name := "A", speciesUrl := some "S" } : PokeBase).name)
          = some ({ id := 1, name := "A", speciesUrl := some "S" } : PokeBase).id
      ∧ mapLookup (getPokemonData demoWorldOk demoState0 7 (IdOrName.byId 1)).2.1.pokemonCache.entries
          (CKey.num ({ id := 1, name := "A", speciesUrl := some "S" } : PokeBase).id)
          = some (7, comp)
      ∧ mapLookup (getPokemonData demoWorldOk demoState0 7 (IdOrName.byId 1)).2.1.pokemonCache.entries
          (CKey.str ("name_" ++ jsToLower ({ id := 1, name := "A", speciesUrl := some "S" } : PokeBase).name))
          = some (7, comp) :=
  resolution_success_extends_name_index demoWorldOk demoState0 7 (IdOrName.byId 1)
    { id := 1, name := "A", speciesUrl := some "S" } (by decide) (by decide) rfl
    (Or.inr ⟨"S", { evolutionChainUrl := some "E" }, rfl, rfl,
      Or.inr ⟨"E", { chainId := 9 }, rfl, rfl⟩⟩)

/-- C4 (amended): on a cache miss the species metadata and the evolution chain
are fetched over the network unconditionally — no `species_<id>` or
`evolution_<chainId>` cache key is consulted — and the resolution writes the
cache only under the numeric id key and the `name_<lowercased-name>` key
(below capacity), so nothing is cached under a species or evolution key
either. -/
theorem miss_fetches_species_unconditionally
    (w : ApiWorld) (st : ResolveState) (now : Nat) (q : IdOrName) (base : PokeBase)
    (su : String) (sd : SpeciesData) (eu : String) (ev : EvoData)
    (hmiss : (st.pokemonCache.get now (keyOf q)).1 = none)
    (hcap : (st.pokemonCache.get now (keyOf q)).2.entries.length + 2
        ≤ st.pokemonCache.maxSize)
    (hb : w.pokemonAt (pokemonPath q) = .ok base)
    (hsu : base.speciesUrl = some su) (hsp : w.speciesAt su = .ok sd)
    (heu : sd.evolutionChainUrl = some eu) (hev : w.evolutionAt eu = .ok ev) :
    (getPokemonData w st now q).2.2 = [pokemonPath q, su, eu]
    ∧ ∀ k : CKey, k ≠ CKey.num base.id → k ≠ CKey.str ("name_" ++ jsToLower base.name) →
        mapLookup (getPokemonData w st now q).2.1.pokemonCache.entries k
          = mapLookup (st.pokemonCache.get now (keyOf q)).2.entries k := by
  unfold getPokemonData
  rcases hg : st.pokemonCache.get now (keyOf q) with ⟨o, c'⟩
  rw [hg] at hmiss hcap
  simp only at hmiss hcap
  subst hmiss
  have hsz : ({ st with pokemonCache := c' } : ResolveState).pokemonCache.entries.length + 2
      ≤ ({ st with pokemonCache := c' } : ResolveState).pokemonCache.maxSize := by
    have hmx : c'.maxSize = st.pokemonCache.maxSize := by
      have hc : c' = (st.pokemonCache.get now (keyOf q)).2 := by rw [hg]
      rw [hc]
      unfold Cache.get
      rcases mapLookup st.pokemonCache.entries (keyOf q) with _ | ⟨ts, v⟩ <;> simp
      split <;> rfl
    simpa [hmx] using hcap
  constructor
  · simp only [hg, hb, hsu, hsp, heu, hev]
  · intro k hk1 hk2
    have hframe := storeComposite_frame { st with pokemonCache := c' } now
      { base := base, speciesData := some sd, evolutionData := some ev } hsz k hk1 hk2
    simpa only [hg, hb, hsu, hsp, heu, hev] using hframe

/-- Witness for the amended C4 at a concrete input: resolving id 1 in
`demoWorldOk` fetches exactly the base URL, the species URL and the evolution
URL, and leaves every key other than `1` and `"name_a"` untouched. -/
theorem miss_fetches_species_witness :
    (getPokemonData demoWorldOk demoState0 7 (IdOrName.byId 1)).2.2
      = [pokemonPath (IdOrName.byId 1), "S", "E"]
    ∧ ∀ k : CKey,
        k ≠ CKey.num ({ id := 1, name := "A", speciesUrl := some "S" } : PokeBase).id →
        k ≠ CKey.str ("name_" ++ jsToLower ({ id := 1, name := "A", speciesUrl := some "S" } : PokeBase).name) →
        mapLookup (getPokemonData demoWorldOk demoState0 7 (IdOrName.byId 1)).2.1.pokemonCache.entries
          k = mapLookup (demoState0.pokemonCache.get 7 (keyOf (IdOrName.byId 1))).2.entries k :=
  miss_fetches_species_unconditionally demoWorldOk demoState0 7 (IdOrName.byId 1)
    { id := 1, name := "A", speciesUrl := some "S" } "S" { evolutionChainUrl := some "E" }
    "E" { chainId := 9 } (by decide) (by decide) rfl rfl rfl rfl rfl

/-- A world with two distinct pokemon sharing one species record. -/
def demoWorldShared : ApiWorld :=
  { pokemonAt := fun u =>
      if u = "pokemon/1" then .ok { id := 1, name := "a", speciesUrl := some "S" }
      else if u = "pokemon/2" then .ok { id := 2, name := "b", speciesUrl := some "S" }
      else .error "HTTP 404"
    speciesAt := fun u =>
      if u = "S" then .ok { evolutionChainUrl := none } else .error "HTTP 404"
    evolutionAt := fun _ => .error "HTTP 404" }

/-- First resolution: id 1, from the fresh state. -/
def sharedRun1 : Except String Composite × ResolveState × List String :=
  getPokemonData demoWorldShared demoState0 0 (IdOrName.byId 1)

/-- Second resolution: id 2, which shares species `"S"` with id 1. -/
def sharedRun2 : Except String Composite × ResolveState × List String :=
  getPokemonData demoWorldShared sharedRun1.2.1 1 (IdOrName.byId 2)

/-- C4 counterexample: after resolving id 1 (which fetched species `"S"`),
resolving id 2 — a different entity sharing the same species — fetches `"S"`
over the network *again*, and the cache after the first resolution holds only
the keys `1` and `"name_a"`: no `species_<id>` key is ever consulted or
written, contradicting the claim that the shared sub-object is not re-fetched. -/
theorem shared_species_is_refetched :
    sharedRun1.2.2 = ["pokemon/1", "S"]
    ∧ sharedRun2.2.2 = ["pokemon/2", "S"]
    ∧ sharedRun1.2.1.pokemonCache.entries.map (fun e => e.1)
        = [CKey.num 1, CKey.str "name_a"] := by
  refine ⟨by decide, by decide, by decide⟩

/-! ### Levenshtein (`PokedexController._computeLevenshtein`)

The JS function takes two strings and a threshold (defaulting to `Infinity`),
returns `n`/`m` when a string is empty, swaps the arguments when the first is
longer, and otherwise runs a two-row DP over rows `i = 1..m`: row `i`, column
`j`, holds the edit distance between the first `i` characters of `s1` and the
first `j` characters of `s2`; after each row, if the row minimum exceeds the
threshold it returns `threshold + 1`. The threshold lives in `ℕ∞`
(`Infinity = ⊤`). The reference definition `editDist` is the textbook
insert/delete/substitute edit distance. -/

/-- Substitution cost: `s1[i-1] === s2[j-1] ? 0 : 1`. -/
def levCost (a b : Char) : Nat := if a = b then 0 else 1

/-- Classic Levenshtein edit distance (insertion, deletion, substitution each
cost 1), by the textbook recurrence. -/
def editDist : List Char → List Char → Nat
  | [], t => t.length
  | s, [] => s.length
  | a :: s, b :: t =>
    min (editDist s (b :: t) + 1)
      (min (editDist (a :: s) t + 1) (editDist s t + levCost a b))
termination_by s t => s.length + t.length

/-- The inner `for j = 1..n` loop of the DP: given the previous row (walked in
lockstep with the remaining characters of `s2`) and the entry just written to
the current row (`left`, initially `currRow[0] = i`), produce the rest of the
current row: `currRow[j] = min(prevRow[j] + 1, currRow[j-1] + 1,
prevRow[j-1] + cost)`. -/
def rowAux (c : Char) : Nat → List Nat → List Char → List Nat
  | left, p0 :: p1 :: ps, b :: bs =>
    min (p1 + 1) (min (left + 1) (p0 + levCost c b))
      :: rowAux c (min (p1 + 1) (min (left + 1) (p0 + levCost c b))) (p1 :: ps) bs
  | _, _, _ => []

/-- `minInRow`: the JS loop folds `Math.min` over the current row starting
from `currRow[0]`. -/
def listMin : List Nat → Nat
  | [] => 0
  | x :: xs => xs.foldl min x

/-- The outer `for i = 1..m` loop: consume the remaining characters of `s1`
(`i` is the number already consumed, `prev` the last completed row), with the
early-termination check after each row; at the end return `prevRow[n]`, the
last entry of the final row. -/
def levLoop (l2 : List Char) (t : ℕ∞) : List Char → Nat → List Nat → ℕ∞
  | [], _, prev => ((prev.getLastD 0 : Nat) : ℕ∞)
  | c :: cs, i, prev =>
    if t < ((listMin ((i + 1) :: rowAux c (i + 1) prev l2) : Nat) : ℕ∞) then t + 1
    else levLoop l2 t cs (i + 1) ((i + 1) :: rowAux c (i + 1) prev l2)

/-- The DP part of `_computeLevenshtein` (both strings nonempty, first one not
longer): initial row `prevRow[j] = j`, then the row loop. -/
def computeLevenshteinAux (l1 l2 : List Char) (t : ℕ∞) : ℕ∞ :=
  levLoop l2 t l1 0 (List.range (l2.length + 1))

/-- `PokedexController._computeLevenshtein(s1, s2, threshold)`: the `m === 0`
and `n === 0` shortcuts, the swap that puts the shorter string into the row
dimension (the JS swap is a recursive call whose guards immediately fall
through to the DP), then the DP. -/
def computeLevenshtein (s1 s2 : String) (t : ℕ∞) : ℕ∞ :=
  if s1.data.length = 0 then (s2.data.length : ℕ∞)
  else if s2.data.length = 0 then (s1.data.length : ℕ∞)
  else if s2.data.length < s1.data.length then computeLevenshteinAux s2.data s1.data t
  else computeLevenshteinAux s1.data s2.data t

/-- The list of edit distances from `u` to the reversed prefixes of `rb`
extended along `v`: the shape of every DP row. Row `i` of the DP (for the
first `i` characters of `s1`, i.e. their reversal `u` as `editDist` peels
heads where the DP appends at the tail) is `colDists u [] l2`. -/
def colDists (u : List Char) : List Char → List Char → List Nat
  | rb, [] => [editDist u rb]
  | rb, b :: bs => editDist u rb :: colDists u (b :: rb) bs

/-! #### Basic `editDist` equations -/

theorem editDist_nil_left (t : List Char) : editDist [] t = t.length := by
  cases t <;> simp [editDist]

theorem editDist_nil_right (s : List Char) : editDist s [] = s.length := by
  cases s <;> simp [editDist]

theorem editDist_cons_cons (a b : Char) (s t : List Char) :
    editDist (a :: s) (b :: t) =
      min (editDist s (b :: t) + 1)
        (min (editDist (a :: s) t + 1) (editDist s t + levCost a b)) := by
  rw [editDist]

theorem levCost_le_one (a b : Char) : levCost a b ≤ 1 := by
  unfold levCost
  split <;> omega

theorem levCost_comm (a b : Char) : levCost a b = levCost b a := by
  unfold levCost
  simp [eq_comm]

/-- The edit-distance recurrence that extends both strings at the *tail*: this
is the step the DP rows implement. -/
theorem editDist_append (u v : List Char) (a b : Char) :
    editDist (u ++ [a]) (v ++ [b]) =
      min (editDist u (v ++ [b]) + 1)
        (min (editDist (u ++ [a]) v + 1) (editDist u v + levCost a b)) := by
  have key : ∀ (n : Nat) (u v : List Char) (a b : Char), u.length + v.length ≤ n →
      editDist (u ++ [a]) (v ++ [b]) =
        min (editDist u (v ++ [b]) + 1)
          (min (editDist (u ++ [a]) v + 1) (editDist u v + levCost a b)) := by
    intro n
    induction n with
    | zero =>
      intro u v a b h
      match u, v with
      | [], [] => simp [editDist_cons_cons]
      | [], _ :: _ => simp only [List.length_cons, List.length_nil] at h; omega
      | _ :: _, _ => simp only [List.length_cons] at h; omega
    | succ n ih =>
      intro u v a b h
      match u, v with
      | [], [] => simp [editDist_cons_cons]
      | [], d :: v' =>
        have e1 := ih [] v' a b (by simp only [List.length_cons, List.length_nil] at h ⊢; omega)
        simp only [List.nil_append, List.cons_append] at e1 ⊢
        rw [editDist_cons_cons a d [] (v' ++ [b]), e1, editDist_cons_cons a d [] v']
        simp only [editDist_nil_left, List.length_cons, List.length_append,
          List.length_nil]
        have h1 := levCost_le_one a b
        have h2 := levCost_le_one a d
        omega
      | c :: u', [] =>
        have e1 := ih u' [] a b (by simp only [List.length_cons, List.length_nil] at h ⊢; omega)
        simp only [List.nil_append, List.cons_append] at e1 ⊢
        rw [editDist_cons_cons c b (u' ++ [a]) [], e1, editDist_cons_cons c b u' []]
        simp only [editDist_nil_right, List.length_cons, List.length_append,
          List.length_nil]
        have h1 := levCost_le_one a b
        have h2 := levCost_le_one c b
        omega
      | c :: u', d :: v' =>
        have e1 := ih u' (d :: v') a b (by simp only [List.length_cons] at h ⊢; omega)
        have e2 := ih (c :: u') v' a b (by simp only [List.length_cons] at h ⊢; omega)
        have e3 := ih u' v' a b (by simp only [List.length_cons] at h ⊢; omega)
        simp only [List.cons_append] at e1 e2 e3 ⊢
        rw [editDist_cons_cons c d (u' ++ [a]) (v' ++ [b]), e1, e2, e3,
          editDist_cons_cons c d u' (v' ++ [b]), editDist_cons_cons c d (u' ++ [a]) v',
          editDist_cons_cons c d u' v']
        simp only [← min_add_add_right]
        apply le_antisymm <;> simp only [le_min_iff, min_le_iff] <;> omega
  exact key (u.length + v.length) u v a b le_rfl

/-- Edit distance is invariant under reversing both strings. -/
theorem editDist_reverse (u v : List Char) :
    editDist u.reverse v.reverse = editDist u v := by
  have key : ∀ (n : Nat) (u v : List Char), u.length + v.length ≤ n →
      editDist u.reverse v.reverse = editDist u v := by
    intro n
    induction n with
    | zero =>
      intro u v h
      match u, v with
      | [], [] => rfl
      | [], _ :: _ => simp only [List.length_cons, List.length_nil] at h; omega
      | _ :: _, _ => simp only [List.length_cons] at h; omega
    | succ n ih =>
      intro u v h
      match u, v with
      | [], v => simp [editDist_nil_left]
      | u, [] => simp [editDist_nil_right]
      | a :: u', b :: v' =>
        have e1 := ih u' (b :: v') (by simp only [List.length_cons] at h ⊢; omega)
        have e2 := ih (a :: u') v' (by simp only [List.length_cons] at h ⊢; omega)
        have e3 := ih u' v' (by simp only [List.length_cons] at h ⊢; omega)
        rw [List.reverse_cons, List.reverse_cons, editDist_append,
          editDist_cons_cons a b u' v', ← List.reverse_cons b v', e1,
          ← List.reverse_cons a u', e2, e3]
  exact key (u.length + v.length) u v le_rfl

/-- Edit distance is symmetric. -/
theorem editDist_comm (u v : List Char) : editDist u v = editDist v u := by
  have key : ∀ (n : Nat) (u v : List Char), u.length + v.length ≤ n →
      editDist u v = editDist v u := by
    intro n
    induction n with
    | zero =>
      intro u v h
      match u, v with
      | [], [] => rfl
      | [], _ :: _ => simp only [List.length_cons, List.length_nil] at h; omega
      | _ :: _, _ => simp only [List.length_cons] at h; omega
    | succ n ih =>
      intro u v h
      match u, v with
      | [], v => simp [editDist_nil_left, editDist_nil_right]
      | u, [] => simp [editDist_nil_left, editDist_nil_right]
      | a :: u', b :: v' =>
        have e1 := ih u' (b :: v') (by simp only [List.length_cons] at h ⊢; omega)
        have e2 := ih (a :: u') v' (by simp only [List.length_cons] at h ⊢; omega)
        have e3 := ih u' v' (by simp only [List.length_cons] at h ⊢; omega)
        rw [editDist_cons_cons a b u' v', editDist_cons_cons b a v' u',
          e1, e2, e3, levCost_comm a b]
        omega
  exact key (u.length + v.length) u v le_rfl

/-! #### Row semantics: each DP row is `colDists` of the processed prefix -/

theorem colDists_eq_head_tail (u rb : List Char) (v : List Char) :
    colDists u rb v = editDist u rb :: (colDists u rb v).tail := by
  cases v <;> rfl

theorem rowAux_colDists (bs : List Char) : ∀ (u rb : List Char) (c : Char),
    rowAux c (editDist (c :: u) rb) (colDists u rb bs) bs
      = (colDists (c :: u) rb bs).tail := by
  induction bs with
  | nil => intro u rb c; rfl
  | cons b bs ih =>
    intro u rb c
    show rowAux c (editDist (c :: u) rb)
        (editDist u rb :: colDists u (b :: rb) bs) (b :: bs)
      = colDists (c :: u) (b :: rb) bs
    rw [colDists_eq_head_tail u (b :: rb) bs]
    show (min (editDist u (b :: rb) + 1)
          (min (editDist (c :: u) rb + 1) (editDist u rb + levCost c b)))
        :: rowAux c (min (editDist u (b :: rb) + 1)
          (min (editDist (c :: u) rb + 1) (editDist u rb + levCost c b)))
          (editDist u (b :: rb) :: (colDists u (b :: rb) bs).tail) bs
      = colDists (c :: u) (b :: rb) bs
    rw [← editDist_cons_cons c b u rb, ← colDists_eq_head_tail u (b :: rb) bs,
      ih u (b :: rb) c, ← colDists_eq_head_tail (c :: u) (b :: rb) bs]

theorem colDists_getLastD (v : List Char) : ∀ (u rb : List Char) (d : Nat),
    (colDists u rb v).getLastD d = editDist u (v.reverse ++ rb) := by
  induction v with
  | nil =>
    intro u rb d
    simp [colDists]
  | cons b bs ih =>
    intro u rb d
    simp only [colDists, List.getLastD_cons]
    rw [ih u (b :: rb) (editDist u rb)]
    congr 1
    simp

theorem colDists_nil_eq_range' (v : List Char) : ∀ (rb : List Char),
    colDists [] rb v = List.range' rb.length (v.length + 1) := by
  induction v with
  | nil =>
    intro rb
    simp [colDists, editDist_nil_left, List.range']
  | cons b bs ih =>
    intro rb
    simp only [colDists, editDist_nil_left, List.length_cons]
    rw [ih (b :: rb)]
    simp [List.range']

theorem foldl_min_le_init (xs : List Nat) : ∀ x : Nat, xs.foldl min x ≤ x := by
  induction xs with
  | nil => intro x; simp
  | cons y ys ih =>
    intro x
    simp only [List.foldl_cons]
    exact le_trans (ih (min x y)) (min_le_left x y)

theorem foldl_min_le_mem (xs : List Nat) : ∀ (x a : Nat), a ∈ xs → xs.foldl min x ≤ a := by
  induction xs with
  | nil => intro x a h; cases h
  | cons y ys ih =>
    intro x a h
    rcases List.mem_cons.mp h with rfl | h
    · exact le_trans (foldl_min_le_init ys (min x a)) (min_le_right x a)
    · exact ih (min x y) a h

theorem listMin_le_of_mem (l : List Nat) (a : Nat) (h : a ∈ l) : listMin l ≤ a := by
  cases l with
  | nil => cases h
  | cons x xs =>
    rcases List.mem_cons.mp h with rfl | h
    · exact foldl_min_le_init xs a
    · exact foldl_min_le_mem xs x a h

/-! #### Lower bound: a row minimum never exceeds the final distance -/

theorem editDist_suffix_le_cons (v : List Char) : ∀ (u : List Char) (a : Char),
    ∃ w, w <:+ v ∧ editDist u w ≤ editDist (a :: u) v := by
  induction v with
  | nil =>
    intro u a
    refine ⟨[], List.nil_suffix, ?_⟩
    rw [editDist_nil_right, editDist_nil_right]
    simp
  | cons d v' ih =>
    intro u a
    rw [editDist_cons_cons a d u v']
    have hd : min (editDist u (d :: v') + 1)
          (min (editDist (a :: u) v' + 1) (editDist u v' + levCost a d))
        = editDist u (d :: v') + 1
      ∨ min (editDist u (d :: v') + 1)
          (min (editDist (a :: u) v' + 1) (editDist u v' + levCost a d))
        = editDist (a :: u) v' + 1
      ∨ min (editDist u (d :: v') + 1)
          (min (editDist (a :: u) v' + 1) (editDist u v' + levCost a d))
        = editDist u v' + levCost a d := by omega
    rcases hd with h | h | h
    · exact ⟨d :: v', List.suffix_refl _, by omega⟩
    · obtain ⟨w, hw, hle⟩ := ih u a
      exact ⟨w, hw.trans (List.suffix_cons d v'), by omega⟩
    · exact ⟨v', List.suffix_cons d v', by omega⟩

theorem editDist_suffix_le_append (pre : List Char) : ∀ (u v : List Char),
    ∃ w, w <:+ v ∧ editDist u w ≤ editDist (pre ++ u) v := by
  induction pre with
  | nil =>
    intro u v
    exact ⟨v, List.suffix_refl v, by simp⟩
  | cons c pre' ih =>
    intro u v
    obtain ⟨w1, hw1, hle1⟩ := editDist_suffix_le_cons v (pre' ++ u) c
    obtain ⟨w, hw, hle⟩ := ih u w1
    refine ⟨w, hw.trans hw1, ?_⟩
    have : (c :: pre') ++ u = c :: (pre' ++ u) := by simp
    rw [this]
    omega

theorem editDist_take_mem_colDists (v : List Char) : ∀ (u rb : List Char) (j : Nat),
    j ≤ v.length → editDist u ((v.take j).reverse ++ rb) ∈ colDists u rb v := by
  induction v with
  | nil =>
    intro u rb j hj
    have : j = 0 := by simpa using hj
    subst this
    simp [colDists]
  | cons b bs ih =>
    intro u rb j hj
    match j with
    | 0 => simp [colDists]
    | j + 1 =>
      have hmem := ih u (b :: rb) j (by simpa using hj)
      have hform : ((b :: bs).take (j + 1)).reverse ++ rb
          = (bs.take j).reverse ++ (b :: rb) := by
        simp
      rw [hform]
      exact List.mem_cons_of_mem _ hmem

theorem suffix_mem_colDists (u l2 w : List Char) (hw : w <:+ l2.reverse) :
    editDist u w ∈ colDists u [] l2 := by
  obtain ⟨p, hp⟩ := hw
  have hk : w = l2.reverse.drop p.length := by rw [← hp, List.drop_left]
  have hlen : p.length ≤ l2.length := by
    have := congrArg List.length hp
    simp at this
    omega
  have hj : w = (l2.take (l2.length - p.length)).reverse := by
    rw [hk, List.drop_reverse]
  have := editDist_take_mem_colDists l2 u [] (l2.length - p.length) (by omega)
  simpa [← hj] using this

/-- One outer-loop step: the row built from the previous row for prefix
`racc` (reversed) and next character `c` is exactly the row for `c :: racc`. -/
theorem levRow_step (l2 racc : List Char) (c : Char) :
    (racc.length + 1) :: rowAux c (racc.length + 1) (colDists racc [] l2) l2
      = colDists (c :: racc) [] l2 := by
  have h1 : racc.length + 1 = editDist (c :: racc) [] := by
    rw [editDist_nil_right]
    simp
  rw [h1, rowAux_colDists l2 racc [] c, ← colDists_eq_head_tail]

/-- The outer loop either early-terminates with `t + 1` or returns the edit
distance between the reversal of the full first string and the reversal of
the second. -/
theorem levLoop_cases (l2 : List Char) (t : ℕ∞) (cs : List Char) : ∀ racc : List Char,
    levLoop l2 t cs racc.length (colDists racc [] l2) = t + 1
    ∨ levLoop l2 t cs racc.length (colDists racc [] l2)
        = ((editDist (List.reverseAux cs racc) l2.reverse : Nat) : ℕ∞) := by
  induction cs with
  | nil =>
    intro racc
    right
    show (((colDists racc [] l2).getLastD 0 : Nat) : ℕ∞) = _
    rw [colDists_getLastD l2 racc [] 0]
    simp [List.reverseAux]
  | cons c cs ih =>
    intro racc
    by_cases hex : t < ((listMin ((racc.length + 1)
        :: rowAux c (racc.length + 1) (colDists racc [] l2) l2) : Nat) : ℕ∞)
    · left
      simp [levLoop, hex]
    · rw [levLoop, if_neg hex, levRow_step]
      have := ih (c :: racc)
      simpa [List.reverseAux] using this

/-- When the true distance is within the threshold, early termination never
fires and the loop returns the exact distance. -/
theorem levLoop_exact (l2 : List Char) (t : ℕ∞) (cs : List Char) : ∀ racc : List Char,
    ((editDist (List.reverseAux cs racc) l2.reverse : Nat) : ℕ∞) ≤ t →
    levLoop l2 t cs racc.length (colDists racc [] l2)
      = ((editDist (List.reverseAux cs racc) l2.reverse : Nat) : ℕ∞) := by
  induction cs with
  | nil =>
    intro racc _
    show (((colDists racc [] l2).getLastD 0 : Nat) : ℕ∞) = _
    rw [colDists_getLastD l2 racc [] 0]
    simp [List.reverseAux]
  | cons c cs ih =>
    intro racc h
    have hdist : editDist (List.reverseAux (c :: cs) racc) l2.reverse
        = editDist (cs.reverse ++ (c :: racc)) l2.reverse := by
      rw [List.reverseAux, List.reverseAux_eq]
    have hrowle : listMin ((racc.length + 1)
        :: rowAux c (racc.length + 1) (colDists racc [] l2) l2)
        ≤ editDist (List.reverseAux (c :: cs) racc) l2.reverse := by
      rw [levRow_step, hdist]
      obtain ⟨w, hw, hle⟩ := editDist_suffix_le_append cs.reverse (c :: racc) l2.reverse
      have hmem := suffix_mem_colDists (c :: racc) l2 w hw
      have := listMin_le_of_mem _ _ hmem
      omega
    have hnotlt : ¬ t < ((listMin ((racc.length + 1)
        :: rowAux c (racc.length + 1) (colDists racc [] l2) l2) : Nat) : ℕ∞) := by
      rw [not_lt]
      refine le_trans ?_ h
      exact_mod_cast hrowle
    rw [levLoop, if_neg hnotlt, levRow_step]
    have hrw : List.reverseAux (c :: cs) racc = List.reverseAux cs (c :: racc) := rfl
    rw [hrw] at h ⊢
    have := ih (c :: racc) h
    simpa using this

theorem computeLevenshteinAux_exact (l1 l2 : List Char) (t : ℕ∞)
    (h : ((editDist l1 l2 : Nat) : ℕ∞) ≤ t) :
    computeLevenshteinAux l1 l2 t = ((editDist l1 l2 : Nat) : ℕ∞) := by
  unfold computeLevenshteinAux
  have h0 : List.range (l2.length + 1) = colDists [] [] l2 := by
    rw [colDists_nil_eq_range' l2 [], List.range_eq_range']
    rfl
  rw [h0]
  have := levLoop_exact l2 t l1 []
    (by simpa [List.reverseAux_eq, editDist_reverse] using h)
  simpa [List.reverseAux_eq, editDist_reverse] using this

theorem computeLevenshteinAux_cases (l1 l2 : List Char) (t : ℕ∞) :
    computeLevenshteinAux l1 l2 t = t + 1
    ∨ computeLevenshteinAux l1 l2 t = ((editDist l1 l2 : Nat) : ℕ∞) := by
  unfold computeLevenshteinAux
  have h0 : List.range (l2.length + 1) = colDists [] [] l2 := by
    rw [colDists_nil_eq_range' l2 [], List.range_eq_range']
    rfl
  rw [h0]
  have := levLoop_cases l2 t l1 []
  simpa [List.reverseAux_eq, editDist_reverse] using this

/-- Exactness half of the Levenshtein contract: whenever the true edit
distance is at most the threshold, `_computeLevenshtein` returns it exactly. -/
theorem computeLevenshtein_exact (s1 s2 : String) (t : ℕ∞)
    (h : ((editDist s1.data s2.data : Nat) : ℕ∞) ≤ t) :
    computeLevenshtein s1 s2 t = ((editDist s1.data s2.data : Nat) : ℕ∞) := by
  unfold computeLevenshtein
  by_cases h1 : s1.data.length = 0
  · have hd : s1.data = [] := List.length_eq_zero.mp h1
    rw [if_pos h1, hd, editDist_nil_left]
  · rw [if_neg h1]
    by_cases h2 : s2.data.length = 0
    · have hd : s2.data = [] := List.length_eq_zero.mp h2
      rw [if_pos h2, hd, editDist_nil_right]
    · rw [if_neg h2]
      by_cases h3 : s2.data.length < s1.data.length
      · rw [if_pos h3, computeLevenshteinAux_exact s2.data s1.data t
          (by rw [editDist_comm]; exact h), editDist_comm]
      · rw [if_neg h3]
        exact computeLevenshteinAux_exact s1.data s2.data t h

/-- Exceedance half of the contract: whenever the true edit distance exceeds
the threshold, the returned value exceeds the threshold (either the `t + 1`
sentinel or the distance itself — not always `t + 1`, see the
counterexample). -/
theorem computeLevenshtein_gt (s1 s2 : String) (t : ℕ∞)
    (h : t < ((editDist s1.data s2.data : Nat) : ℕ∞)) :
    t < computeLevenshtein s1 s2 t := by
  have htop : t ≠ ⊤ := ne_top_of_lt h
  have ht1 : t < t + 1 := (ENat.lt_add_one_iff htop).mpr le_rfl
  unfold computeLevenshtein
  by_cases h1 : s1.data.length = 0
  · have hd : s1.data = [] := List.length_eq_zero.mp h1
    rw [hd, editDist_nil_left] at h
    rw [if_pos h1]
    exact h
  · rw [if_neg h1]
    by_cases h2 : s2.data.length = 0
    · have hd : s2.data = [] := List.length_eq_zero.mp h2
      rw [hd, editDist_nil_right] at h
      rw [if_pos h2]
      exact h
    · rw [if_neg h2]
      by_cases h3 : s2.data.length < s1.data.length
      · rw [if_pos h3]
        rcases computeLevenshteinAux_cases s2.data s1.data t with hc | hc
        · rw [hc]; exact ht1
        · rw [hc, editDist_comm]; exact h
      · rw [if_neg h3]
        rcases computeLevenshteinAux_cases s1.data s2.data t with hc | hc
        · rw [hc]; exact ht1
        · rw [hc]; exact h

/-- C5 counterexample: for `s1 = "a"`, `s2 = "abc"`, threshold 0, the true
distance is 2 > 0, but the function returns 2, not the claimed sentinel
`threshold + 1 = 1`: when no intermediate row minimum exceeds the threshold
the final value is returned as is, even when it exceeds the threshold. -/
theorem levenshtein_sentinel_counterexample :
    (0 : ℕ∞) < ((editDist "a".data "abc".data : Nat) : ℕ∞)
    ∧ computeLevenshtein "a" "abc" 0 = 2
    ∧ computeLevenshtein "a" "abc" 0 ≠ (0 : ℕ∞) + 1 := by
  have hd : ((editDist "a".data "abc".data : Nat) : ℕ∞) = 2 := by
    have h := computeLevenshtein_exact "a" "abc" ⊤ le_top
    rw [← h]
    decide
  exact ⟨by rw [hd]; decide, by decide, by decide⟩

/-- C5 (amended): `_computeLevenshtein(s1, s2, threshold)` returns the classic
insert/delete/substitute edit distance whenever that distance is at most the
threshold (in particular 3 for "kitten"/"sitting" and 0 for "abc"/"abc" with
unbounded threshold, and 1 for "abc"/"abd" with threshold 1), and returns a
value strictly greater than the threshold whenever the true distance exceeds
it — the early-termination sentinel `threshold + 1` when a row minimum
exceeds the threshold (in particular 2 for "abc"/"xyz" with threshold 1), but
possibly the exact distance itself otherwise. -/
theorem levenshtein_code_spec :
    (∀ (s1 s2 : String) (t : ℕ∞), ((editDist s1.data s2.data : Nat) : ℕ∞) ≤ t →
        computeLevenshtein s1 s2 t = ((editDist s1.data s2.data : Nat) : ℕ∞))
    ∧ (∀ (s1 s2 : String) (t : ℕ∞), t < ((editDist s1.data s2.data : Nat) : ℕ∞) →
        t < computeLevenshtein s1 s2 t)
    ∧ computeLevenshtein "kitten" "sitting" ⊤ = 3
    ∧ computeLevenshtein "abc" "abc" ⊤ = 0
    ∧ computeLevenshtein "abc" "abd" 1 = 1
    ∧ computeLevenshtein "abc" "xyz" 1 = 2 :=
  ⟨computeLevenshtein_exact, computeLevenshtein_gt,
    by decide, by decide, by decide, by decide⟩

/-- Witness for C5 at a concrete input: with the unbounded threshold the
function computes the exact distance for "kitten"/"sitting". -/
theorem levenshtein_code_spec_witness :
    computeLevenshtein "kitten" "sitting" ⊤
      = ((editDist "kitten".data "sitting".data : Nat) : ℕ∞) :=
  levenshtein_code_spec.1 "kitten" "sitting" ⊤ le_top

/-! ### Fuzzy search (`PokedexController._fuzzySearch`, `_isFuzzyMatch`,
`_hasTypoMatch`)

String primitives are modelled on character lists so that they evaluate in
the kernel; `jsToLower` above plays `toLowerCase()`. -/

/-- `q` is a prefix of `s` (JS `String.prototype.startsWith`). -/
def isPrefixL : List Char → List Char → Bool
  | [], _ => true
  | _ :: _, [] => false
  | a :: as, b :: bs => if a = b then isPrefixL as bs else false

/-- `q` occurs as a contiguous substring of `s` (JS `String.prototype.includes`). -/
def hasSubL (q : List Char) : List Char → Bool
  | [] => isPrefixL q []
  | c :: cs => isPrefixL q (c :: cs) || hasSubL q cs

/-- `name.includes(query)`. -/
def strIncludes (s q : String) : Bool := hasSubL q.data s.data

/-- `name.startsWith(query)`. -/
def strStarts (s q : String) : Bool := isPrefixL q.data s.data

/-- `.replace(/[-_]/g, ' ')`. -/
def normalizeSeparators (s : String) : String :=
  ⟨s.data.map (fun c => if c = '-' ∨ c = '_' then ' ' else c)⟩

/-- JS `String.prototype.trim`: strip leading and trailing whitespace. -/
def jsTrim (s : String) : String :=
  ⟨((s.data.dropWhile Char.isWhitespace).reverse.dropWhile Char.isWhitespace).reverse⟩

/-- JS `split(/\s+/)`: split on maximal whitespace runs, keeping a leading
(resp. trailing) empty token when the string starts (resp. ends) with
whitespace, and returning `[""]` on the empty string. `inWs` records whether
the previous character was part of a whitespace run, `cur` the current token
(reversed). -/
def splitWsF : Bool → List Char → List Char → List String
  | _, cur, [] => [String.mk cur.reverse]
  | inWs, cur, c :: cs =>
    if Char.isWhitespace c then
      if inWs then splitWsF true cur cs
      else String.mk cur.reverse :: splitWsF true [] cs
    else splitWsF false (c :: cur) cs

/-- JS `s.split(/\s+/)`. -/
def splitWs (s : String) : List String := splitWsF false [] s.data

/-- The in-order subsequence check of `_isFuzzyMatch`: the two-pointer loop
(advance the target pointer always, the query pointer on a character match,
succeed when the query is exhausted) accepts exactly when the query is a
subsequence of the target. An empty query or target is rejected up front
(JS falsiness of `""`). -/
def isSubseqL : List Char → List Char → Bool
  | [], _ => true
  | _ :: _, [] => false
  | a :: as, b :: bs => if a = b then isSubseqL as bs else isSubseqL (a :: as) bs

/-- `PokedexController._isFuzzyMatch(query, target)`. -/
def isFuzzyMatch (query target : String) : Bool :=
  if query = "" ∨ target = "" then false
  else isSubseqL (jsToLower query).data (jsToLower target).data

/-- `PokedexController._hasTypoMatch(query, target)`: bounded-Levenshtein
checks (threshold 1) against stepped sliding windows of the target, the
possibly-skipped last window, the target's prefix, and — when the query is
the longer one — the query's prefix. -/
def hasTypoMatch (query target : String) : Bool :=
  let q := jsToLower query
  let t := jsToLower target
  let qlen := q.data.length
  let tlen := t.data.length
  if qlen ≤ 2 then false
  else
    let step := max 1 (qlen / 3)
    let subAt : Nat → String := fun i => ⟨(t.data.drop i).take qlen⟩
    let positions : List Nat :=
      if qlen ≤ tlen then (List.range ((tlen - qlen) / step + 1)).map (fun j => j * step)
      else []
    (positions.any (fun i => decide (computeLevenshtein q (subAt i) 1 ≤ 1)))
    || ((decide ((tlen - qlen) % step ≠ 0) && decide (qlen ≤ tlen))
        && decide (computeLevenshtein q (subAt (tlen - qlen)) 1 ≤ 1))
    || (decide (qlen ≤ tlen)
        && decide (computeLevenshtein q ⟨t.data.take qlen⟩ 1 ≤ 1))
    || (decide (tlen ≤ qlen)
        && decide (computeLevenshtein t ⟨q.data.take tlen⟩ 1 ≤ 1))

/-- The per-name tier selection of `_fuzzySearch`: substring (1), prefix (2),
multi-token — every query token is a prefix of, or within Levenshtein
distance 1 of, some name token (3) — then the fuzzy fallback:
subsequence or typo match (4). -/
def matchPriority (query name : String) : Option Nat :=
  let queryTokens :=
    (splitWs (jsToLower (jsTrim (normalizeSeparators query)))).filter (fun tok => tok ≠ "")
  let nameTokens := splitWs (jsToLower (normalizeSeparators name))
  if strIncludes name query then some 1
  else if strStarts name query then some 2
  else if queryTokens.all (fun qt => nameTokens.any (fun nt =>
      strStarts nt qt || decide (computeLevenshtein qt nt 1 ≤ 1))) then some 3
  else if isFuzzyMatch query name || hasTypoMatch query name then some 4
  else none

/-- The single scan of `_fuzzySearch` with its early exit: stop once 100
matches have been collected and the current one has priority ≤ 2. -/
def collectMatches (query : String) : Nat → List String → List (Nat × String)
  | _, [] => []
  | k, n :: ns =>
    match matchPriority query n with
    | none => collectMatches query k ns
    | some p =>
      (p, n) :: (if 100 ≤ k + 1 ∧ p ≤ 2 then [] else collectMatches query (k + 1) ns)

/-- The JS sort comparator `(a, b) => a.priority - b.priority ||
a.name.length - b.name.length`, as the relation `compare(a, b) ≤ 0`. -/
def fuzzyCmpLe (a b : Nat × String) : Bool :=
  decide (a.1 < b.1) || (decide (a.1 = b.1) && decide (a.2.length ≤ b.2.length))

/-- Stable insertion realizing JS `Array.prototype.sort` (which is stable):
`x` goes before the first element not strictly smaller than it. -/
def stableInsert (x : Nat × String) : List (Nat × String) → List (Nat × String)
  | [] => [x]
  | y :: ys =>
    if fuzzyCmpLe y x && ! fuzzyCmpLe x y then y :: stableInsert x ys
    else x :: y :: ys

/-- Stable sort by the comparator (insertion sort — any stable sort computes
the unique result JS `Array.prototype.sort` produces for this consistent
comparator). -/
def stableSortMatches : List (Nat × String) → List (Nat × String)
  | [] => []
  | x :: xs => stableInsert x (stableSortMatches xs)

/-- `PokedexController._fuzzySearch(query)` over the name array: collect the
per-name tiers, sort by priority then name length, cap at 100, return the
names. -/
def fuzzySearch (query : String) (allNames : List String) : List String :=
  if allNames.isEmpty then []
  else ((stableSortMatches (collectMatches query 0 allNames)).take 100).map (fun m => m.2)

/-- C8 counterexample: the query `"pikacu"` against the name `"pikachu"` is
accepted by the priority-3 multi-token tier — its single token `"pikacu"` is
within Levenshtein distance 1 of the name token `"pikachu"` — so the match is
*not* produced by the priority-4 fuzzy-fallback tier as claimed. -/
theorem pikacu_matches_at_tier3 :
    matchPriority "pikacu" "pikachu" = some 3
    ∧ matchPriority "pikacu" "pikachu" ≠ some 4 := by
  refine ⟨by decide, by decide⟩

/-- C8 (amended): the fuzzy matcher on a name index containing `"pikachu"`
does return `"pikachu"` for the query `"pikacu"`, but the match comes from
the priority-3 multi-token tier (its per-token bounded-Levenshtein subcheck),
not from the priority-4 fallback tier. -/
theorem pikacu_fuzzy_match :
    fuzzySearch "pikacu" ["pikachu"] = ["pikachu"]
    ∧ matchPriority "pikacu" "pikachu" = some 3 := by
  refine ⟨by decide, by decide⟩
